import Mathlib

/-!
# Verification of the four-bar synthesis system against its specification

This file shallowly embeds the parts of the repository that the checked
claims are about and proves (or refutes) each claim.

Two kinds of material appear:

* The JavaScript glue code that ships under `src/` (the wasm-bindgen heap
  table of the no-modules bundle, the string marshalling routine of the
  ES-module bundle, and the cookie readers of the page scripts) is embedded
  directly from the source.

* The Rust synthesis core (linkage model, shape descriptor, optimizer,
  atlas) is not present in the source tree; only its build scripts and
  manifest are.  Those components are therefore modelled from the
  specification text, and every such definition carries a doc comment
  starting with `Modelled from the spec:`.
-/

/-! ## The wasm-bindgen heap table (no-modules glue, `src/unnamed/part_002`)

The glue keeps a growable array `heap` whose first 36 slots are reserved
(indices 0..31 are padding, 32..35 hold `undefined`, `null`, `true`,
`false`), and a free-list head `heap_next`.  Free slots store the index of
the next free slot; `addHeapObject` pops the free list (growing the array
by one when it is exhausted) and `dropObject` pushes onto it.  JavaScript
values are modelled by `JSVal`; `heap_next` is modelled as a `Nat` because
the glue only ever stores array indices in it. -/

inductive JSVal where
  | undef : JSVal
  | null : JSVal
  | bool : Bool → JSVal
  | num : Nat → JSVal
  | obj : Nat → JSVal
deriving DecidableEq, Repr

/-- Reading `heap[i]`: out-of-range reads give `undefined`, as in JS. -/
def heapGet (l : List JSVal) (i : Nat) : JSVal := l.getD i JSVal.undef

/-- Writing `heap[i] = v`: in-range writes update the slot; a write one
past the end appends (the only out-of-range write the glue performs);
further holes are padded with `undefined` as JS arrays would read them. -/
def heapWrite (l : List JSVal) (i : Nat) (v : JSVal) : List JSVal :=
  if i < l.length then l.set i v
  else l ++ List.replicate (i - l.length) JSVal.undef ++ [v]

structure HeapState where
  heap : List JSVal
  heap_next : Nat
deriving DecidableEq, Repr

/-- `function getObject(idx) { return heap[idx]; }` -/
def getObject (s : HeapState) (idx : Nat) : JSVal := heapGet s.heap idx

/-- `function dropObject(idx) { if (idx < 36) return; heap[idx] = heap_next; heap_next = idx; }` -/
def dropObject (s : HeapState) (idx : Nat) : HeapState :=
  if idx < 36 then s
  else { heap := heapWrite s.heap idx (JSVal.num s.heap_next), heap_next := idx }

/-- `function takeObject(idx) { const ret = getObject(idx); dropObject(idx); return ret; }` -/
def takeObject (s : HeapState) (idx : Nat) : HeapState × JSVal :=
  (dropObject s idx, getObject s idx)

/-- `function addHeapObject(obj) { if (heap_next === heap.length) heap.push(heap.length + 1);
const idx = heap_next; heap_next = heap[idx]; heap[idx] = obj; return idx; }`
When the slot read back into `heap_next` is not a number the JS engine
would store a non-index value; that situation is excluded by `HeapWF`
below, and the model reads `0` there. -/
def addHeapObject (s : HeapState) (v : JSVal) : HeapState × Nat :=
  let s1 : HeapState :=
    if s.heap_next = s.heap.length
    then { s with heap := s.heap ++ [JSVal.num (s.heap.length + 1)] }
    else s
  let idx := s1.heap_next
  let nxt : Nat := match heapGet s1.heap idx with
    | JSVal.num m => m
    | _ => 0
  ({ heap := heapWrite s1.heap idx v, heap_next := nxt }, idx)

/-- `const heap = new Array(32).fill(undefined); heap.push(undefined, null, true, false);`
with `heap_next = heap.length` (= 36). -/
def heapStart : HeapState :=
  { heap := List.replicate 32 JSVal.undef ++
      [JSVal.undef, JSVal.null, JSVal.bool true, JSVal.bool false],
    heap_next := 36 }

/-- Well-formedness maintained by the glue: the free-list head is at least
36, at most the array length, and when it points inside the array the slot
it points to holds a number (the next free index). -/
def HeapWF (s : HeapState) : Prop :=
  36 ≤ s.heap_next ∧ s.heap_next ≤ s.heap.length ∧ 36 ≤ s.heap.length ∧
    (s.heap_next < s.heap.length → ∃ m, heapGet s.heap s.heap_next = JSVal.num m)

instance : DecidablePred HeapWF := fun s => by
  unfold HeapWF
  have : Decidable (∃ m, heapGet s.heap s.heap_next = JSVal.num m) := by
    cases h : heapGet s.heap s.heap_next with
    | num m => exact Decidable.isTrue ⟨m, rfl⟩
    | undef => exact Decidable.isFalse (by simp [h])
    | null => exact Decidable.isFalse (by simp [h])
    | bool b => exact Decidable.isFalse (by simp [h])
    | obj o => exact Decidable.isFalse (by simp [h])
  exact instDecidableAnd

lemma heapGet_set_self {l : List JSVal} {i : Nat} {a : JSVal}
    (h : heapGet l i = a) (hi : i < l.length) : l.set i a = l := by
  subst h
  apply List.ext_getElem
  · simp
  · intro n h1 h2
    rcases eq_or_ne n i with rfl | hne
    · simp [heapGet, List.getD, List.getElem?_eq_getElem hi]
    · simp [List.getElem_set_ne (Ne.symm hne)]

lemma heapGet_write_self {l : List JSVal} {i : Nat} (hi : i < l.length) :
    heapWrite l i (heapGet l i) = l := by
  unfold heapWrite
  rw [if_pos hi, heapGet_set_self rfl hi]

lemma heapGet_write_eq {l : List JSVal} {i : Nat} (v : JSVal) (hi : i ≤ l.length) :
    heapGet (heapWrite l i v) i = v := by
  unfold heapWrite
  rcases lt_or_eq_of_le hi with h | h
  · simp [heapGet, if_pos h, List.getD, List.getElem?_set_self, h]
  · rw [if_neg (by omega)]
    simp [heapGet, List.getD, h, List.getElem?_append_right]

lemma heapGet_write_ne {l : List JSVal} {i j : Nat} (v : JSVal)
    (hne : j ≠ i) (hj : j < l.length) :
    heapGet (heapWrite l i v) j = heapGet l j := by
  unfold heapWrite
  split
  · simp [heapGet, List.getD, List.getElem?_set_ne (Ne.symm hne)]
  · simp [heapGet, List.getD, List.getElem?_append_left hj]

lemma heapGet_append_left {l t : List JSVal} {i : Nat} (hi : i < l.length) :
    heapGet (l ++ t) i = heapGet l i := by
  simp [heapGet, List.getD, List.getElem?_append_left hi]

lemma heapGet_append_self (l : List JSVal) (x : JSVal) :
    heapGet (l ++ [x]) l.length = x := by
  simp [heapGet, List.getD]

lemma set_append_last (l : List JSVal) (x v : JSVal) :
    (l ++ [x]).set l.length v = l ++ [v] := by
  apply List.ext_getElem
  · simp
  · intro n h1 h2
    simp only [List.length_set, List.length_append, List.length_singleton] at h1
    rcases lt_or_eq_of_le (Nat.lt_succ_iff.mp h1) with h | h
    · rw [List.getElem_set_ne (by omega), List.getElem_append_left h,
        List.getElem_append_left h]
    · subst h
      rw [List.getElem_set_self]
      simp

lemma dropObject_small (s : HeapState) {j : Nat} (hj : j < 36) :
    dropObject s j = s := by
  unfold dropObject
  rw [if_pos hj]

/-- C8: in the no-modules wasm-bindgen glue, `takeObject(addHeapObject(v))`
returns `v`, restores `heap_next`, and restores every pre-existing heap
slot; when `heap_next < heap.length` before the call the whole state is
restored exactly, while when `heap_next = heap.length` (free list empty)
the heap additionally keeps one trailing free slot holding
`heap.length + 1`, so the heap array itself is *not* literally unchanged.
Moreover `dropObject` at any index below 36 leaves the state unchanged. -/
theorem c8_take_add_roundtrip (s : HeapState) (v : JSVal) (h : HeapWF s) :
    (takeObject (addHeapObject s v).1 (addHeapObject s v).2).2 = v ∧
    (takeObject (addHeapObject s v).1 (addHeapObject s v).2).1.heap_next = s.heap_next ∧
    (∀ i, i < s.heap.length →
      heapGet (takeObject (addHeapObject s v).1 (addHeapObject s v).2).1.heap i =
        heapGet s.heap i) ∧
    (s.heap_next < s.heap.length →
      (takeObject (addHeapObject s v).1 (addHeapObject s v).2).1 = s) ∧
    (s.heap_next = s.heap.length →
      (takeObject (addHeapObject s v).1 (addHeapObject s v).2).1.heap =
        s.heap ++ [JSVal.num (s.heap.length + 1)]) ∧
    (∀ j, j < 36 → dropObject s j = s) := by
  obtain ⟨h36, hle, hlen36, hslot⟩ := h
  rcases lt_or_eq_of_le hle with hlt | heq
  · -- free list non-empty: `heap_next` points at a free slot inside the array
    obtain ⟨m, hm⟩ := hslot hlt
    have hadd : addHeapObject s v =
        ({ heap := s.heap.set s.heap_next v, heap_next := m }, s.heap_next) := by
      unfold addHeapObject
      rw [if_neg (Nat.ne_of_lt hlt)]
      simp only [hm]
      unfold heapWrite
      rw [if_pos hlt]
    have hget : heapGet (s.heap.set s.heap_next v) s.heap_next = v := by
      simp [heapGet, List.getD, List.getElem?_set_self, hlt]
    have hdrop : dropObject { heap := s.heap.set s.heap_next v, heap_next := m }
        s.heap_next = s := by
      unfold dropObject
      rw [if_neg (by omega)]
      unfold heapWrite
      rw [if_pos (by simpa using hlt)]
      rw [List.set_set, heapGet_set_self hm hlt]
    refine ⟨?_, ?_, ?_, ?_, ?_, fun j hj => dropObject_small s hj⟩
    · rw [hadd]; exact hget
    · rw [hadd]
      show (dropObject _ _).heap_next = _
      rw [hdrop]
    · intro i _
      rw [hadd]
      show heapGet (dropObject _ _).heap i = _
      rw [hdrop]
    · intro _
      rw [hadd]
      show dropObject _ _ = s
      exact hdrop
    · intro hc; omega
  · -- free list empty: the array grows by one slot first
    have hadd : addHeapObject s v =
        ({ heap := s.heap ++ [v], heap_next := s.heap.length + 1 }, s.heap.length) := by
      unfold addHeapObject
      rw [if_pos heq]
      simp only [heq]
      rw [heapGet_append_self]
      unfold heapWrite
      rw [if_pos (by simp)]
      rw [set_append_last]
    have hget : heapGet (s.heap ++ [v]) s.heap.length = v := heapGet_append_self _ _
    have hdrop : dropObject { heap := s.heap ++ [v], heap_next := s.heap.length + 1 }
        s.heap.length =
        { heap := s.heap ++ [JSVal.num (s.heap.length + 1)],
          heap_next := s.heap.length } := by
      unfold dropObject
      rw [if_neg (by omega)]
      unfold heapWrite
      rw [if_pos (by simp)]
      rw [set_append_last]
    refine ⟨?_, ?_, ?_, ?_, ?_, fun j hj => dropObject_small s hj⟩
    · rw [hadd]; exact hget
    · rw [hadd]
      show (dropObject _ _).heap_next = _
      rw [hdrop, heq]
    · intro i hi
      rw [hadd]
      show heapGet (dropObject _ _).heap i = _
      rw [hdrop]
      exact heapGet_append_left hi
    · intro hc; omega
    · intro _
      rw [hadd]
      show (dropObject _ _).heap = _
      rw [hdrop]

/-- C8 witness: the round-trip theorem applied at the glue's start state
and the value `obj 7`. -/
theorem c8_take_add_roundtrip_witness :
    HeapWF heapStart ∧
    (takeObject (addHeapObject heapStart (JSVal.obj 7)).1
      (addHeapObject heapStart (JSVal.obj 7)).2).2 = JSVal.obj 7 :=
  ⟨by decide, (c8_take_add_roundtrip heapStart (JSVal.obj 7) (by decide)).1⟩

/-- C8 counterexample: at the glue's start state (where
`heap_next = heap.length = 36`), `takeObject(addHeapObject(v))` does *not*
leave the heap array in the state it had before: the array has grown by a
trailing free slot.  This refutes the claim's "leaves the heap array ...
in the state they had before" for that (reachable) state, even though the
returned value and `heap_next` are as claimed. -/
theorem c8_heap_grows_counterexample :
    (takeObject (addHeapObject heapStart (JSVal.num 5)).1
      (addHeapObject heapStart (JSVal.num 5)).2).1.heap ≠ heapStart.heap ∧
    (takeObject (addHeapObject heapStart (JSVal.num 5)).1
      (addHeapObject heapStart (JSVal.num 5)).2).2 = JSVal.num 5 ∧
    (takeObject (addHeapObject heapStart (JSVal.num 5)).1
      (addHeapObject heapStart (JSVal.num 5)).2).1.heap_next = heapStart.heap_next := by
  refine ⟨?_, by decide, by decide⟩
  decide

/-! ## String marshalling (ES-module glue, `src/unnamed/part_000`)

`passStringToWasm0(arg, malloc, realloc)` copies a JS string into wasm
memory.  With `realloc` defined it first copies the ASCII head byte by
byte, then falls back to `TextEncoder.encodeInto` plus two `realloc`
calls for any non-ASCII tail.  The model represents the string as its
list of UTF-16 code units, wasm memory as `Nat → Nat`, and the external
`malloc` / `realloc` / `encodeInto` as parameters (`malloc`'s result is
the `ptr` argument; `>>> 0` is implicit since pointers are `Nat`).
`reallocCalls` counts how many times `realloc` was invoked. -/

structure PassResult where
  ptr : Nat
  wasmVectorLen : Nat
  mem : Nat → Nat
  reallocCalls : Nat

/-- The ASCII copy loop of `passStringToWasm0`:
`for (; offset < len; offset++) { const code = arg.charCodeAt(offset);
if (code > 0x7F) break; mem[ptr + offset] = code; }`
returning the final memory and `offset`. -/
def passLoop (codes : List Nat) (ptr off : Nat) (mem : Nat → Nat) :
    (Nat → Nat) × Nat :=
  match codes with
  | [] => (mem, off)
  | c :: rest =>
    if c > 0x7F then (mem, off)
    else passLoop rest ptr (off + 1) (fun a => if a = ptr + off then c else mem a)

/-- `passStringToWasm0` (the `realloc !== undefined` path is the branch
below the early return).  `encodeIntoFn rest viewPtr viewLen mem` models
`cachedTextEncoder.encodeInto(arg, view)` on the remaining code units,
returning the new memory and the `(read, written)` record; `encodeFn`
models `cachedTextEncoder.encode` for the `realloc === undefined` path. -/
def passStringToWasm0 (codes : List Nat) (mallocPtr : Nat)
    (reallocFn : Option (Nat → Nat → Nat → (Nat → Nat) → Nat × (Nat → Nat)))
    (encodeFn : List Nat → List Nat)
    (encodeIntoFn : List Nat → Nat → Nat → (Nat → Nat) → (Nat → Nat) × Nat × Nat)
    (mem : Nat → Nat) : PassResult :=
  match reallocFn with
  | none =>
    let buf := encodeFn codes
    let ptr := mallocPtr
    let mem1 := fun a =>
      if ptr ≤ a ∧ a < ptr + buf.length then buf.getD (a - ptr) 0 else mem a
    { ptr := ptr, wasmVectorLen := buf.length, mem := mem1, reallocCalls := 0 }
  | some reallocFn =>
    let len := codes.length
    let ptr := mallocPtr
    let (mem1, offset) := passLoop codes ptr 0 mem
    if offset ≠ len then
      let rest := codes.drop offset
      let len2 := offset + rest.length * 3
      let (ptr2, mem2) := reallocFn ptr len len2 mem1
      let (mem3, _, written) := encodeIntoFn rest (ptr2 + offset) (len2 - offset) mem2
      let offset2 := offset + written
      let (ptr3, mem4) := reallocFn ptr2 len2 offset2 mem3
      { ptr := ptr3, wasmVectorLen := offset2, mem := mem4, reallocCalls := 2 }
    else
      { ptr := ptr, wasmVectorLen := offset, mem := mem1, reallocCalls := 0 }

lemma passLoop_ascii (codes : List Nat) (ptr : Nat) (h : ∀ c ∈ codes, c ≤ 0x7F) :
    ∀ (off : Nat) (mem : Nat → Nat),
      (passLoop codes ptr off mem).2 = off + codes.length ∧
      (∀ i, i < codes.length →
        (passLoop codes ptr off mem).1 (ptr + (off + i)) = codes.getD i 0) ∧
      (∀ a, (∀ i, i < codes.length → a ≠ ptr + (off + i)) →
        (passLoop codes ptr off mem).1 a = mem a) := by
  induction codes with
  | nil =>
    intro off mem
    refine ⟨rfl, ?_, fun a _ => rfl⟩
    intro i hi
    simp at hi
  | cons c rest ih =>
    intro off mem
    have hc : ¬ c > 0x7F := by
      have := h c (List.mem_cons_self c rest)
      omega
    have hrest : ∀ x ∈ rest, x ≤ 0x7F := fun x hx => h x (List.mem_cons_of_mem c hx)
    obtain ⟨ih1, ih2, ih3⟩ := ih hrest (off + 1)
      (fun a => if a = ptr + off then c else mem a)
    have hstep : passLoop (c :: rest) ptr off mem =
        passLoop rest ptr (off + 1) (fun a => if a = ptr + off then c else mem a) := by
      simp only [passLoop, if_neg hc]
    refine ⟨?_, ?_, ?_⟩
    · rw [hstep, ih1]
      simp [Nat.add_comm, Nat.add_assoc, Nat.add_left_comm]
    · intro i hi
      rw [hstep]
      match i with
      | 0 =>
        rw [ih3 (ptr + (off + 0)) (fun j hj => by omega)]
        simp
      | Nat.succ j =>
        have hj : j < rest.length := by
          simpa [Nat.succ_lt_succ_iff] using hi
        have := ih2 j hj
        simpa [show off + (j + 1) = off + 1 + j by omega] using this
    · intro a ha
      rw [hstep]
      rw [ih3 a (fun j hj => ha (j + 1) (by simpa [Nat.succ_lt_succ_iff] using hj)
        |>.trans_eq (by omega) |> fun x => x)]
      · rw [if_neg (by
          have := ha 0 (by simp)
          simpa using this)]

/-- C9: for a pure-ASCII string (every code unit at most `0x7F`) and any
`malloc`/`realloc` pair with `realloc` defined, `passStringToWasm0`
returns the `malloc`ed pointer, writes exactly the `arg.length` code
units at that pointer (leaving every other address untouched), sets
`WASM_VECTOR_LEN` to `arg.length`, and never calls `realloc`. -/
theorem c9_passString_ascii (codes : List Nat) (mallocPtr : Nat)
    (reallocFn : Nat → Nat → Nat → (Nat → Nat) → Nat × (Nat → Nat))
    (encodeFn : List Nat → List Nat)
    (encodeIntoFn : List Nat → Nat → Nat → (Nat → Nat) → (Nat → Nat) × Nat × Nat)
    (mem : Nat → Nat) (h : ∀ c ∈ codes, c ≤ 0x7F) :
    (passStringToWasm0 codes mallocPtr (some reallocFn) encodeFn encodeIntoFn mem).ptr =
      mallocPtr ∧
    (passStringToWasm0 codes mallocPtr (some reallocFn) encodeFn encodeIntoFn
      mem).wasmVectorLen = codes.length ∧
    (passStringToWasm0 codes mallocPtr (some reallocFn) encodeFn encodeIntoFn
      mem).reallocCalls = 0 ∧
    (∀ i, i < codes.length →
      (passStringToWasm0 codes mallocPtr (some reallocFn) encodeFn encodeIntoFn
        mem).mem (mallocPtr + i) = codes.getD i 0) ∧
    (∀ a, (∀ i, i < codes.length → a ≠ mallocPtr + i) →
      (passStringToWasm0 codes mallocPtr (some reallocFn) encodeFn encodeIntoFn
        mem).mem a = mem a) := by
  obtain ⟨h1, h2, h3⟩ := passLoop_ascii codes mallocPtr h 0 mem
  have hoff : (passLoop codes mallocPtr 0 mem).2 = codes.length :=
    h1.trans (Nat.zero_add _)
  have hpair : passLoop codes mallocPtr 0 mem =
      ((passLoop codes mallocPtr 0 mem).1, codes.length) :=
    Prod.ext rfl hoff
  have hres : passStringToWasm0 codes mallocPtr (some reallocFn) encodeFn
      encodeIntoFn mem =
      { ptr := mallocPtr, wasmVectorLen := codes.length,
        mem := (passLoop codes mallocPtr 0 mem).1, reallocCalls := 0 } := by
    unfold passStringToWasm0
    rw [hpair]
    simp [hoff]
  rw [hres]
  refine ⟨rfl, rfl, rfl, ?_, ?_⟩
  · intro i hi
    have := h2 i hi
    simpa using this
  · intro a ha
    exact h3 a (fun i hi => by simpa using ha i hi)

/-- C9 witness: the theorem applied to the two-character ASCII string
`"ab"` (code units 97, 98) at pointer 1000, with trivial external
functions and zeroed memory. -/
theorem c9_passString_ascii_witness :
    (∀ c ∈ [97, 98], c ≤ 0x7F) ∧
    (passStringToWasm0 [97, 98] 1000 (some (fun p _ _ m => (p, m)))
      (fun l => l) (fun _ _ _ m => (m, 0, 0)) (fun _ => 0)).wasmVectorLen = 2 :=
  ⟨by decide,
    (c9_passString_ascii [97, 98] 1000 (fun p _ _ m => (p, m)) (fun l => l)
      (fun _ _ _ m => (m, 0, 0)) (fun _ => 0) (by decide)).2.1⟩

/-! ## Cookie readers (`src/unnamed/part_015` and `src/main.js`)

Three implementations read the `username` cookie out of `document.cookie`:

* `window.get_username = () => ("; " + document.cookie).split("; username=").pop().split(";").shift();`
* the checked variant that first tests `parts.length === 2`;
* `window.identity`, an index-based scan in `src/main.js`.

Strings are modelled as `List Char`.  `jsSplit p ps` is JavaScript's
`String.prototype.split` with the non-empty separator `p :: ps`
(non-overlapping, left to right); `matchesFront l pat` is "`l` starts
with `pat`". -/

def matchesFront : List Char → List Char → Bool
  | _, [] => true
  | [], _ :: _ => false
  | c :: cs, p :: ps => c = p && matchesFront cs ps

def jsSplit (p : Char) (ps : List Char) : List Char → List (List Char)
  | [] => [[]]
  | c :: rest =>
    if matchesFront (c :: rest) (p :: ps) then
      [] :: jsSplit p ps (rest.drop ps.length)
    else
      match jsSplit p ps rest with
      | [] => [[c]]
      | h :: t => (c :: h) :: t
termination_by l => l.length
decreasing_by
  · simp only [List.length_cons, List.length_drop]
    omega
  · simp only [List.length_cons]
    omega

/-- `"; "` prepended to the cookie string. -/
def semiSpace : List Char := [';', ' ']

/-- The separator `"; username="` minus its leading `';'`. -/
def usernameSepTail : List Char :=
  [' ', 'u', 's', 'e', 'r', 'n', 'a', 'm', 'e', '=']

/-- The separator `"; username="`. -/
def usernameSep : List Char := ';' :: usernameSepTail

/-- The cookie name `"username="` scanned for by `window.identity`. -/
def nameChars : List Char := ['u', 's', 'e', 'r', 'n', 'a', 'm', 'e', '=']

/-- `window.get_username = () => ("; " + document.cookie)
.split("; username=").pop().split(";").shift();` (`src/unnamed/part_015`,
line 143).  `.pop()` takes the last element, `.shift()` the first. -/
def get_username (cookie : List Char) : List Char :=
  (jsSplit ';' []
    ((jsSplit ';' usernameSepTail (semiSpace ++ cookie)).getLastD [])).headD []

/-- The checked variant (`src/unnamed/part_015`, lines 68-71):
`const parts = ("; " + document.cookie).split("; username=");
return parts.length === 2 ? parts.pop().split(";").shift() : "";` -/
def get_username_checked (cookie : List Char) : List Char :=
  let parts := jsSplit ';' usernameSepTail (semiSpace ++ cookie)
  if parts.length = 2 then (jsSplit ';' [] (parts.getLastD [])).headD [] else []

/-- `document.cookie.indexOf(";", j)` modelled on the dropped tail:
index of the first `';'` or `none`. -/
def findSemi : List Char → Option Nat
  | [] => none
  | c :: rest => if c = ';' then some 0 else (findSemi rest).map (· + 1)

/-- `let end = document.cookie.indexOf(";", j); if (end === -1) end = document.cookie.length;` -/
def semiFrom (cookie : List Char) (j : Nat) : Nat :=
  match findSemi (cookie.drop j) with
  | some r => j + r
  | none => cookie.length

lemma lt_semiFrom {cookie : List Char} {i j : Nat}
    (hi : i < cookie.length) (hj : i < j) : i < semiFrom cookie j := by
  unfold semiFrom
  rcases hf : findSemi (cookie.drop j) with _ | r
  · simp only [hf]
    exact hi
  · simp only [hf]
    omega

/-- The `while` loop of `window.identity` (`src/main.js`, lines 44-57),
with current scan position `i`:
`while (i < document.cookie.length) { const j = i + name.length;
let end = document.cookie.indexOf(";", j); if (end === -1) end = document.cookie.length;
if (document.cookie.substring(i, j) === name) return document.cookie.substring(j, end);
i = end; } return "";` -/
def identityLoop (cookie : List Char) (i : Nat) : List Char :=
  if h : i < cookie.length then
    if (cookie.drop i).take nameChars.length = nameChars then
      (cookie.drop (i + nameChars.length)).take
        (semiFrom cookie (i + nameChars.length) - (i + nameChars.length))
    else identityLoop cookie (semiFrom cookie (i + nameChars.length))
  else []
termination_by cookie.length - i
decreasing_by
  have h9 : i < i + nameChars.length := by simp [nameChars]
  have := lt_semiFrom h h9
  omega

/-- `window.identity` (`src/main.js`). -/
def identity (cookie : List Char) : List Char := identityLoop cookie 0

lemma matchesFront_iff (pat : List Char) :
    ∀ l : List Char, matchesFront l pat = true ↔ pat <+: l := by
  induction pat with
  | nil =>
    intro l
    cases l <;> simp [matchesFront]
  | cons p ps ih =>
    intro l
    cases l with
    | nil => simp [matchesFront]
    | cons c cs =>
      rw [List.cons_prefix_cons]
      rw [show matchesFront (c :: cs) (p :: ps) =
        (decide (c = p) && matchesFront cs ps) from rfl]
      rw [Bool.and_eq_true, decide_eq_true_eq, ih]
      exact ⟨fun x => ⟨x.1.symm, x.2⟩, fun x => ⟨x.1.symm, x.2⟩⟩

lemma jsSplit_no_occurrence (p : Char) (ps : List Char) :
    ∀ l : List Char, ¬ ((p :: ps) <:+: l) → jsSplit p ps l = [l] := by
  intro l
  induction l with
  | nil =>
    intro _
    simp [jsSplit]
  | cons c rest ih =>
    intro h
    have hcond : ¬ matchesFront (c :: rest) (p :: ps) = true := by
      intro hc
      exact h (((matchesFront_iff (p :: ps) (c :: rest)).mp hc).isInfix)
    have hrest : ¬ ((p :: ps) <:+: rest) := by
      intro hc
      obtain ⟨s, t, hst⟩ := hc
      exact h ⟨c :: s, t, by rw [← hst]; simp⟩
    rw [jsSplit, if_neg hcond, ih hrest]

lemma jsSplit_semi_head (rest : List Char) :
    (jsSplit ';' [] (';' :: rest)).headD [] = [] := by
  rw [jsSplit, if_pos (by simp [matchesFront])]
  rfl

lemma findSemi_some : ∀ {l : List Char} {r : Nat}, findSemi l = some r →
    l[r]? = some ';' := by
  intro l
  induction l with
  | nil => intro r h; exact absurd h (by simp [findSemi])
  | cons c rest ih =>
    intro r h
    rw [findSemi] at h
    by_cases hc : c = ';'
    · rw [if_pos hc] at h
      cases h
      simp [hc]
    · rw [if_neg hc] at h
      obtain ⟨r', hr', rfl⟩ := Option.map_eq_some'.mp h
      simpa using ih hr'

lemma semiFrom_semi {cookie : List Char} {j : Nat}
    (h : semiFrom cookie j < cookie.length) :
    cookie[semiFrom cookie j]? = some ';' := by
  rcases hf : findSemi (cookie.drop j) with _ | r
  · exfalso
    unfold semiFrom at h
    rw [hf] at h
    simp at h
  · have h2 : semiFrom cookie j = j + r := by
      unfold semiFrom
      rw [hf]
    rw [h2]
    have := findSemi_some hf
    rwa [List.getElem?_drop] at this

lemma identityLoop_no_username (cookie : List Char)
    (hstart : ¬ nameChars <+: cookie) :
    ∀ (fuel i : Nat), cookie.length - i ≤ fuel →
      (i = 0 ∨ cookie[i]? = some ';' ∨ cookie.length ≤ i) →
      identityLoop cookie i = [] := by
  intro fuel
  induction fuel with
  | zero =>
    intro i hle _
    rw [identityLoop, dif_neg (by omega)]
  | succ n ih =>
    intro i hle hi
    by_cases h : i < cookie.length
    · have hcond : ¬ ((cookie.drop i).take nameChars.length = nameChars) := by
        rcases hi with rfl | hsemi | hout
        · rw [List.drop_zero]
          intro hc
          exact hstart (hc ▸ List.take_prefix _ _)
        · intro hc
          have h0 : ((cookie.drop i).take nameChars.length)[0]? = some ';' := by
            rw [List.getElem?_take_of_lt (by simp [nameChars])]
            rw [List.getElem?_drop]
            simpa using hsemi
          rw [hc] at h0
          simp [nameChars] at h0
        · omega
      rw [identityLoop, dif_pos h, if_neg hcond]
      have hlt : i < semiFrom cookie (i + nameChars.length) :=
        lt_semiFrom h (by simp [nameChars])
      apply ih
      · omega
      · by_cases h' : semiFrom cookie (i + nameChars.length) < cookie.length
        · exact Or.inr (Or.inl (semiFrom_semi h'))
        · exact Or.inr (Or.inr (by omega))
    · rw [identityLoop, dif_neg h]

/-- C10: whenever `document.cookie` contains no `username` cookie entry
(formally: `"; username="` does not occur in `"; " + document.cookie`,
which is exactly the absence of a `username=` entry since cookie entries
are separated by `"; "`), all three readers — the unchecked
`window.get_username`, the length-checked variant, and `window.identity`
— return the empty string, not another cookie's value and not
`undefined`. -/
theorem c10_no_username_cookie_empty (cookie : List Char)
    (h : ¬ (usernameSep <:+: (semiSpace ++ cookie))) :
    get_username cookie = [] ∧ get_username_checked cookie = [] ∧
      identity cookie = [] := by
  have hparts : jsSplit ';' usernameSepTail (semiSpace ++ cookie) =
      [semiSpace ++ cookie] :=
    jsSplit_no_occurrence ';' usernameSepTail (semiSpace ++ cookie) h
  have hstart : ¬ nameChars <+: cookie := by
    intro hc
    obtain ⟨t, ht⟩ := hc
    refine h (List.IsPrefix.isInfix ⟨t, ?_⟩)
    rw [← ht]
    rfl
  refine ⟨?_, ?_, ?_⟩
  · unfold get_username
    rw [hparts]
    show (jsSplit ';' [] (semiSpace ++ cookie)).headD [] = []
    exact jsSplit_semi_head _
  · unfold get_username_checked
    rw [hparts]
    rfl
  · exact identityLoop_no_username cookie hstart cookie.length 0 (by omega)
      (Or.inl rfl)

/-- C10 witness: the theorem applied to the concrete cookie string
`"foo=bar"`, which has no `username` entry. -/
theorem c10_no_username_cookie_empty_witness :
    ¬ (usernameSep <:+: (semiSpace ++ ['f', 'o', 'o', '=', 'b', 'a', 'r'])) ∧
      identity ['f', 'o', 'o', '=', 'b', 'a', 'r'] = [] :=
  ⟨by decide,
    (c10_no_username_cookie_empty ['f', 'o', 'o', '=', 'b', 'a', 'r']
      (by decide)).2.2⟩

/-! ## Shape Descriptor (spec 4.2; the Rust implementation is not under `src/`)

The descriptor is modelled from the spec over exact arithmetic: a sampled
curve is a function `ZMod N → ℂ` (planar points as complex numbers), its
harmonic expansion is the discrete Fourier transform, and `normalize`
removes the translation / rotation / scale / starting-phase degrees of
freedom.  Translation only enters the DC coefficient, which the
descriptor omits; rotation+scale (multiplication by a nonzero complex
`a`) and phase shift (cyclic index shift by `m`) multiply coefficient
`k` by `a·ω^(k·m)`, and the descriptor entries below are precisely the
gauge-invariant combinations that cancel those factors. -/

/-- Modelled from the spec: the primitive `N`-th root of unity
underlying the harmonic (elliptical Fourier) expansion of 4.2. -/
noncomputable def zetaN (N : ℕ) : ℂ := Complex.exp (2 * Real.pi * Complex.I / N)

/-- Modelled from the spec: the additive character `j ↦ ζ_N^j` on
`ZMod N` — the basis functions of the harmonic expansion of 4.2. -/
noncomputable def charE (N : ℕ) (x : ZMod N) : ℂ := zetaN N ^ x.val

lemma zetaN_ne_zero (N : ℕ) : zetaN N ≠ 0 := Complex.exp_ne_zero _

lemma zetaN_prim (N : ℕ) [NeZero N] : IsPrimitiveRoot (zetaN N) N :=
  Complex.isPrimitiveRoot_exp N (NeZero.ne N)

lemma zetaN_pow_self (N : ℕ) [NeZero N] : zetaN N ^ N = 1 :=
  (zetaN_prim N).pow_eq_one

lemma zetaN_pow_mod (N : ℕ) [NeZero N] (a : ℕ) :
    zetaN N ^ a = zetaN N ^ (a % N) := by
  conv_lhs => rw [← Nat.div_add_mod a N]
  rw [pow_add, pow_mul, zetaN_pow_self, one_pow, one_mul]

lemma charE_zero (N : ℕ) [NeZero N] : charE N 0 = 1 := by
  unfold charE
  rw [ZMod.val_zero, pow_zero]

lemma charE_add (N : ℕ) [NeZero N] (x y : ZMod N) :
    charE N (x + y) = charE N x * charE N y := by
  unfold charE
  rw [ZMod.val_add, ← zetaN_pow_mod, pow_add]

lemma charE_ne_zero (N : ℕ) (x : ZMod N) : charE N x ≠ 0 :=
  pow_ne_zero _ (zetaN_ne_zero N)

lemma charE_neg (N : ℕ) [NeZero N] (x : ZMod N) :
    charE N (-x) = (charE N x)⁻¹ := by
  have h : charE N x * charE N (-x) = 1 := by
    rw [← charE_add, add_neg_cancel, charE_zero]
  exact eq_inv_of_mul_eq_one_left (by rw [mul_comm] at h; exact h)

lemma charE_nsmul (N : ℕ) [NeZero N] (n : ℕ) (x : ZMod N) :
    charE N (n • x) = charE N x ^ n := by
  induction n with
  | zero => rw [zero_smul, charE_zero, pow_zero]
  | succ m ih => rw [succ_nsmul, charE_add, ih, pow_succ]

lemma charE_zsmul (N : ℕ) [NeZero N] (z : ℤ) (x : ZMod N) :
    charE N (z • x) = charE N x ^ z := by
  cases z with
  | ofNat n =>
    rw [Int.ofNat_eq_coe, natCast_zsmul, charE_nsmul, zpow_natCast]
  | negSucc n =>
    rw [negSucc_zsmul, charE_neg, charE_nsmul, zpow_negSucc]

lemma charE_eq_one_iff (N : ℕ) [NeZero N] (x : ZMod N) :
    charE N x = 1 ↔ x = 0 := by
  unfold charE
  rw [(zetaN_prim N).pow_eq_one_iff_dvd]
  constructor
  · intro h
    rw [← ZMod.val_eq_zero]
    rcases Nat.eq_zero_or_pos x.val with h0 | h0
    · exact h0
    · exact absurd (Nat.le_of_dvd h0 h) (by have := ZMod.val_lt x; omega)
  · intro h
    rw [h, ZMod.val_zero]
    exact dvd_zero N

lemma sum_charE_mul (N : ℕ) [NeZero N] {x : ZMod N} (hx : x ≠ 0) :
    ∑ j : ZMod N, charE N (x * j) = 0 := by
  have hshift : ∑ j : ZMod N, charE N (x * (j + 1)) =
      ∑ j : ZMod N, charE N (x * j) :=
    Fintype.sum_equiv (Equiv.addRight (1 : ZMod N)) _ _ (fun j => rfl)
  have key : (∑ j : ZMod N, charE N (x * j)) * charE N x =
      ∑ j : ZMod N, charE N (x * j) := by
    rw [Finset.sum_mul]
    rw [← hshift]
    refine Finset.sum_congr rfl (fun j _ => ?_)
    rw [← charE_add, mul_add, mul_one]
  have hz : (∑ j : ZMod N, charE N (x * j)) * (charE N x - 1) = 0 := by
    rw [mul_sub, key, mul_one, sub_self]
  rcases mul_eq_zero.mp hz with h | h
  · exact h
  · exact absurd ((charE_eq_one_iff N x).mp (by linear_combination h)) hx

/-- Modelled from the spec: harmonic (discrete Fourier) coefficient `k`
of a sampled curve `C : ZMod N → ℂ` — the "harmonic (elliptical Fourier)
expansion of the curve's coordinate functions" of spec 4.2. -/
noncomputable def dftCoeff (N : ℕ) [NeZero N] (C : ZMod N → ℂ) (k : ℤ) : ℂ :=
  ∑ j : ZMod N, C j * charE N (-((k : ZMod N) * j))

/-- Modelled from the spec: a similarity transform — rotation and uniform
scale as multiplication by a nonzero complex number `a`, translation by `b`. -/
def similarity (N : ℕ) (a b : ℂ) (C : ZMod N → ℂ) : ZMod N → ℂ :=
  fun j => a * C j + b

/-- Modelled from the spec: a starting-point phase shift by `m` samples. -/
def phaseShift (N : ℕ) (m : ZMod N) (C : ZMod N → ℂ) : ZMod N → ℂ :=
  fun j => C (j + m)

/-- Modelled from the spec: `normalize` — the descriptor entry at harmonic
`k`, a combination of harmonic coefficients that removes the
rotation/scale/translation/start-phase degrees of freedom (spec 4.2:
"removes rotation/scale/translation/start-phase degrees of freedom ...
solving for the canonical orientation").  Coefficients `1` and `-1` fix
the gauge; translation is removed because the DC coefficient is never
used (`k ≢ 0 mod N`). -/
noncomputable def normalizeDesc (N : ℕ) [NeZero N] (C : ZMod N → ℂ) (k : ℤ) : ℂ :=
  dftCoeff N C k ^ (2 : ℤ) * dftCoeff N C 1 ^ (-(k + 1)) *
    dftCoeff N C (-1) ^ (k - 1)

/-- Modelled from the spec: `distance` — "a weighted sum-of-squares over
harmonic coefficients" (spec 4.2), over the harmonic index set `H`. -/
noncomputable def descDistance (w : ℤ → ℝ) (H : Finset ℤ) (d1 d2 : ℤ → ℂ) : ℝ :=
  ∑ k ∈ H, w k * Complex.normSq (d1 k - d2 k)

lemma dftCoeff_similarity (N : ℕ) [NeZero N] (a b : ℂ) (C : ZMod N → ℂ)
    (k : ℤ) (hk : ((k : ZMod N) : ZMod N) ≠ 0) :
    dftCoeff N (similarity N a b C) k = a * dftCoeff N C k := by
  unfold dftCoeff similarity
  have hsum : ∑ j : ZMod N, charE N (-((k : ZMod N) * j)) = 0 := by
    have h2 : ∀ j : ZMod N, -((k : ZMod N) * j) = (-(k : ZMod N)) * j :=
      fun j => by ring
    simp_rw [h2]
    exact sum_charE_mul N (neg_ne_zero.mpr hk)
  calc ∑ j : ZMod N, (a * C j + b) * charE N (-((k : ZMod N) * j))
      = (∑ j : ZMod N, a * (C j * charE N (-((k : ZMod N) * j)))) +
        ∑ j : ZMod N, b * charE N (-((k : ZMod N) * j)) := by
        rw [← Finset.sum_add_distrib]
        exact Finset.sum_congr rfl (fun j _ => by ring)
    _ = a * ∑ j : ZMod N, C j * charE N (-((k : ZMod N) * j)) := by
        rw [← Finset.mul_sum, ← Finset.mul_sum, hsum, mul_zero, add_zero]

lemma dftCoeff_phaseShift (N : ℕ) [NeZero N] (m : ZMod N) (C : ZMod N → ℂ)
    (k : ℤ) :
    dftCoeff N (phaseShift N m C) k =
      charE N ((k : ZMod N) * m) * dftCoeff N C k := by
  unfold dftCoeff phaseShift
  rw [Finset.mul_sum]
  refine Fintype.sum_equiv (Equiv.addRight m) _ _ (fun j => ?_)
  show C (j + m) * charE N (-((k : ZMod N) * j)) =
    charE N ((k : ZMod N) * m) * (C (j + m) * charE N (-((k : ZMod N) * (j + m))))
  rw [show charE N ((k : ZMod N) * m) *
      (C (j + m) * charE N (-((k : ZMod N) * (j + m)))) =
      C (j + m) * (charE N ((k : ZMod N) * m) *
        charE N (-((k : ZMod N) * (j + m)))) from by ring]
  rw [← charE_add]
  congr 1
  ring

lemma charE_intCast_mul (N : ℕ) [NeZero N] (k : ℤ) (m : ZMod N) :
    charE N ((k : ZMod N) * m) = charE N m ^ k := by
  rw [← zsmul_eq_mul]
  exact charE_zsmul N k m

lemma dftCoeff_transformed (N : ℕ) [NeZero N] (a b : ℂ) (m : ZMod N)
    (C : ZMod N → ℂ) (k : ℤ) (hk : ((k : ZMod N) : ZMod N) ≠ 0) :
    dftCoeff N (similarity N a b (phaseShift N m C)) k =
      a * charE N m ^ k * dftCoeff N C k := by
  rw [dftCoeff_similarity N a b _ k hk, dftCoeff_phaseShift, charE_intCast_mul]
  ring

lemma gauge_cancel (A Om x y z : ℂ) (hA : A ≠ 0) (hOm : Om ≠ 0) (k : ℤ) :
    (A * Om ^ k * x) ^ (2 : ℤ) * (A * Om ^ (1 : ℤ) * y) ^ (-(k + 1)) *
      (A * Om ^ (-1 : ℤ) * z) ^ (k - 1) =
    x ^ (2 : ℤ) * y ^ (-(k + 1)) * z ^ (k - 1) := by
  rw [mul_zpow, mul_zpow, mul_zpow, mul_zpow, mul_zpow, mul_zpow]
  rw [← zpow_mul Om k 2, ← zpow_mul Om 1 (-(k + 1)), ← zpow_mul Om (-1) (k - 1)]
  have hA2 : A ^ (2 : ℤ) * A ^ (-(k + 1)) * A ^ (k - 1) = 1 := by
    rw [← zpow_add₀ hA, ← zpow_add₀ hA,
      show (2 : ℤ) + -(k + 1) + (k - 1) = 0 by ring, zpow_zero]
  have hOm2 : Om ^ (k * 2) * Om ^ (1 * -(k + 1)) * Om ^ (-1 * (k - 1)) = 1 := by
    rw [← zpow_add₀ hOm, ← zpow_add₀ hOm,
      show k * 2 + 1 * -(k + 1) + -1 * (k - 1) = 0 by ring, zpow_zero]
  calc A ^ (2 : ℤ) * Om ^ (k * 2) * x ^ (2 : ℤ) *
        (A ^ (-(k + 1)) * Om ^ (1 * -(k + 1)) * y ^ (-(k + 1))) *
        (A ^ (k - 1) * Om ^ (-1 * (k - 1)) * z ^ (k - 1))
      = (A ^ (2 : ℤ) * A ^ (-(k + 1)) * A ^ (k - 1)) *
        (Om ^ (k * 2) * Om ^ (1 * -(k + 1)) * Om ^ (-1 * (k - 1))) *
        (x ^ (2 : ℤ) * y ^ (-(k + 1)) * z ^ (k - 1)) := by ring
    _ = x ^ (2 : ℤ) * y ^ (-(k + 1)) * z ^ (k - 1) := by
        rw [hA2, hOm2, one_mul, one_mul]

lemma normalizeDesc_invariant (N : ℕ) [NeZero N] (hN : 2 ≤ N) (a b : ℂ)
    (ha : a ≠ 0) (m : ZMod N) (C : ZMod N → ℂ) (k : ℤ)
    (hk : ((k : ZMod N) : ZMod N) ≠ 0) :
    normalizeDesc N (similarity N a b (phaseShift N m C)) k =
      normalizeDesc N C k := by
  haveI : Fact (1 < N) := ⟨hN⟩
  have h1 : (((1 : ℤ) : ZMod N) : ZMod N) ≠ 0 := by
    rw [Int.cast_one]
    exact one_ne_zero
  have hm1 : (((-1 : ℤ) : ZMod N) : ZMod N) ≠ 0 := by
    rw [Int.cast_neg, Int.cast_one]
    exact neg_ne_zero.mpr one_ne_zero
  unfold normalizeDesc
  rw [dftCoeff_transformed N a b m C k hk,
    dftCoeff_transformed N a b m C 1 h1,
    dftCoeff_transformed N a b m C (-1) hm1]
  exact gauge_cancel a (charE N m) _ _ _ ha (charE_ne_zero N m) k

/-- C1: for every sampled curve `C`, every similarity transform
(multiplication by a nonzero complex `a` = rotation+uniform scale, plus
translation `b`) and every starting-point phase shift by `m` samples,
the descriptor distance between `normalize(C)` and `normalize(T(S(C)))`
is exactly `0` in exact arithmetic, over any harmonic set `H` whose
indices are nonzero mod `N` (the DC term carries the translation and is
not part of the descriptor). -/
theorem c1_descriptor_invariant (N : ℕ) [NeZero N] (hN : 2 ≤ N)
    (C : ZMod N → ℂ) (a b : ℂ) (ha : a ≠ 0) (m : ZMod N)
    (w : ℤ → ℝ) (H : Finset ℤ) (hH : ∀ k ∈ H, ((k : ZMod N) : ZMod N) ≠ 0) :
    descDistance w H (normalizeDesc N C)
      (normalizeDesc N (similarity N a b (phaseShift N m C))) = 0 := by
  unfold descDistance
  refine Finset.sum_eq_zero (fun k hk => ?_)
  rw [normalizeDesc_invariant N hN a b ha m C k (hH k hk), sub_self,
    Complex.normSq_zero, mul_zero]

/-- C1 witness: the theorem applied at `N = 2`, the two-point curve
`(0, 1)`, the similarity `z ↦ 2·z + 3`, phase shift `1`, unit weights
and harmonic set `{1}`. -/
theorem c1_descriptor_invariant_witness :
    (2 : ℂ) ≠ 0 ∧
    descDistance (fun _ => 1) {1}
      (normalizeDesc 2 (fun j => if j = 0 then 0 else 1))
      (normalizeDesc 2 (similarity 2 2 3
        (phaseShift 2 1 (fun j => if j = 0 then 0 else 1)))) = 0 :=
  ⟨two_ne_zero,
    c1_descriptor_invariant 2 (le_refl 2) _ 2 3 two_ne_zero 1 _ {1}
      (fun k hk => by
        rw [Finset.mem_singleton] at hk
        subst hk
        rw [Int.cast_one]
        exact one_ne_zero)⟩

/-! ## Linkage Model (spec 4.1; the Rust implementation is not under `src/`)

Modelled from the spec: a planar four-bar linkage is given by its four
link lengths, plus the coupler-point placement (angle and distance on the
floating link).  `fbCurve` samples the coupler point at `n` crank angles
(full rotation for `Closed` mode, a caller-given sub-range for
`Open`/`Partial`), after an assembly feasibility check of Grashof type;
infeasible lengths give the typed error, never a garbage curve. -/

structure FourBarParam where
  ground : ℝ
  crank : ℝ
  coupler : ℝ
  rocker : ℝ
  couplerAngle : ℝ
  couplerDist : ℝ

/-- Modelled from the spec: the three curve modes (`Closed`, `Open`,
`Partial`); the latter two carry the caller-specified angular sub-range. -/
inductive CurveMode where
  | closed : CurveMode
  | openArc (start stop : ℝ) : CurveMode
  | trimmedArc (start stop : ℝ) : CurveMode

/-- Modelled from the spec: the typed infeasibility signal of 4.1/7. -/
inductive LinkageError where
  | infeasibleMechanism : LinkageError
deriving DecidableEq, Repr

def minLink (p : FourBarParam) : ℝ :=
  min (min p.ground p.crank) (min p.coupler p.rocker)

def maxLink (p : FourBarParam) : ℝ :=
  max (max p.ground p.crank) (max p.coupler p.rocker)

def linkSum (p : FourBarParam) : ℝ :=
  p.ground + p.crank + p.coupler + p.rocker

/-- Modelled from the spec: the assembly feasibility check — "the four
link lengths must satisfy assembly conditions (triangle/Grashof-type
inequalities)": positive lengths and shortest+longest not exceeding the
sum of the other two (Grashof). -/
def feasible (p : FourBarParam) : Prop :=
  0 < p.ground ∧ 0 < p.crank ∧ 0 < p.coupler ∧ 0 < p.rocker ∧
    minLink p + maxLink p ≤ linkSum p - minLink p - maxLink p

noncomputable instance : DecidablePred feasible := fun p => by
  unfold feasible
  infer_instance

/-- Modelled from the spec: the `i`-th of `n` equally spaced crank angles
(radians): the full turn for `Closed` mode, the caller-specified
sub-range for `Open`/`Partial`. -/
noncomputable def crankAngle (mode : CurveMode) (n i : ℕ) : ℝ :=
  match mode with
  | CurveMode.closed => 2 * Real.pi * i / n
  | CurveMode.openArc a b => a + (b - a) * i / ((n : ℝ) - 1)
  | CurveMode.trimmedArc a b => a + (b - a) * i / ((n : ℝ) - 1)

/-- Modelled from the spec: closed-form forward kinematics of the planar
four-bar loop at crank angle `θ` — crank pin `A`, diagonal `d` from `A`
to the far ground pivot, coupler inclination from the cosine rule, and
the coupler point placed at `(couplerAngle, couplerDist)` from `A`. -/
noncomputable def fbPos (p : FourBarParam) (θ : ℝ) : ℝ × ℝ :=
  let ax := p.crank * Real.cos θ
  let ay := p.crank * Real.sin θ
  let dx := p.ground - ax
  let dy := -ay
  let d := Real.sqrt (dx ^ 2 + dy ^ 2)
  let ψ := Complex.arg { re := dx, im := dy }
  let β := Real.arccos ((d ^ 2 + p.coupler ^ 2 - p.rocker ^ 2) /
    (2 * d * p.coupler))
  let μ := ψ + β + p.couplerAngle
  (ax + p.couplerDist * Real.cos μ, ay + p.couplerDist * Real.sin μ)

/-- Modelled from the spec: `curve(params, mode, n_samples) ->
Result<Curve, InfeasibleError>` of 4.1. -/
noncomputable def fbCurve (p : FourBarParam) (mode : CurveMode) (n : ℕ) :
    Except LinkageError (List (ℝ × ℝ)) :=
  if feasible p then
    Except.ok ((List.range n).map (fun i => fbPos p (crankAngle mode n i)))
  else Except.error LinkageError.infeasibleMechanism

/-- C2: `curve(params, mode, n)` is total for every parameter vector,
mode and `n ≥ 2` — it returns the typed infeasibility signal exactly
when the link lengths violate the assembly conditions, and otherwise a
valid curve of exactly `n` sampled points (never a garbage curve, never
a crash: the embedding is a total function into
`Except LinkageError Curve`). -/
theorem c2_curve_total (p : FourBarParam) (mode : CurveMode) (n : ℕ)
    (hn : 2 ≤ n) :
    (¬ feasible p →
      fbCurve p mode n = Except.error LinkageError.infeasibleMechanism) ∧
    (feasible p →
      ∃ pts, fbCurve p mode n = Except.ok pts ∧ pts.length = n) := by
  constructor
  · intro h
    unfold fbCurve
    rw [if_neg h]
  · intro h
    unfold fbCurve
    rw [if_pos h]
    exact ⟨_, rfl, by simp⟩

/-- Modelled from the spec: the end-to-end example linkage of spec 8 —
link lengths `[3,5,4,6]`, with a coupler point at angle 0, distance 1. -/
noncomputable def fbDemo : FourBarParam :=
  { ground := 3, crank := 5, coupler := 4, rocker := 6,
    couplerAngle := 0, couplerDist := 1 }

/-- Modelled from the spec: a non-assembling linkage — one link longer
than the other three combined. -/
noncomputable def fbBad : FourBarParam :=
  { ground := 1, crank := 10, coupler := 1, rocker := 1,
    couplerAngle := 0, couplerDist := 0 }

lemma fbDemo_feasible : feasible fbDemo := by
  unfold feasible fbDemo minLink maxLink linkSum
  norm_num [min_def, max_def]

lemma fbBad_infeasible : ¬ feasible fbBad := by
  unfold feasible fbBad minLink maxLink linkSum
  norm_num [min_def, max_def]

/-- C2 witness: the totality theorem applied at the spec's `[3,5,4,6]`
linkage with `n = 2` closed-mode samples. -/
theorem c2_curve_total_witness :
    feasible fbDemo ∧
    ∃ pts, fbCurve fbDemo CurveMode.closed 2 = Except.ok pts ∧
      pts.length = 2 :=
  ⟨fbDemo_feasible,
    (c2_curve_total fbDemo CurveMode.closed 2 (by norm_num)).2 fbDemo_feasible⟩

/-! ## Fitness / objective (spec section 3 "Fitness/Objective" and 7) -/

/-- Modelled from the spec: the "large finite value" used as feasibility
penalty. -/
noncomputable def penaltyValue : ℝ := 10 ^ 10

/-- Modelled from the spec: a sampled curve (list of planar points)
re-indexed over `ZMod n` as complex numbers, for the descriptor
transform. -/
noncomputable def curveFun (n : ℕ) (pts : List (ℝ × ℝ)) : ZMod n → ℂ :=
  fun j => { re := (pts.getD j.val (0, 0)).1, im := (pts.getD j.val (0, 0)).2 }

/-- Modelled from the spec: the Fitness/Objective function —
`descriptor-distance(target Descriptor, descriptor(curve(ParameterVector)))`,
"with a feasibility penalty ... added as a large finite value rather than
rejecting the candidate outright"; infeasibility is absorbed locally and
the function is total (`ℝ`-valued, no error channel). -/
noncomputable def objective (n : ℕ) [NeZero n] (w : ℤ → ℝ) (H : Finset ℤ)
    (target : ℤ → ℂ) (mode : CurveMode) (p : FourBarParam) : ℝ :=
  match fbCurve p mode n with
  | Except.error _ => penaltyValue
  | Except.ok pts => descDistance w H target (normalizeDesc n (curveFun n pts))

/-- C5: the objective is a total real-valued function on the whole
parameter domain: an infeasible mechanism (assembly violation) yields
exactly the large finite penalty fitness, a feasible one yields the
descriptor distance of its curve — no failure is ever propagated out of
a fitness evaluation (the codomain is `ℝ`, not an error type). -/
theorem c5_objective_absorbs_infeasibility (n : ℕ) [NeZero n] (w : ℤ → ℝ)
    (H : Finset ℤ) (target : ℤ → ℂ) (mode : CurveMode) (p : FourBarParam) :
    (¬ feasible p → objective n w H target mode p = penaltyValue) ∧
    (feasible p → objective n w H target mode p =
      descDistance w H target (normalizeDesc n (curveFun n
        ((List.range n).map (fun i => fbPos p (crankAngle mode n i)))))) := by
  constructor
  · intro h
    unfold objective fbCurve
    rw [if_neg h]
  · intro h
    unfold objective fbCurve
    rw [if_pos h]

/-- C5 witness: the theorem applied to the non-assembling linkage
`fbBad`, unit weights, harmonic set `{1}` and a zero target. -/
theorem c5_objective_absorbs_infeasibility_witness :
    ¬ feasible fbBad ∧
    objective 2 (fun _ => 1) {1} (fun _ => 0) CurveMode.closed fbBad =
      penaltyValue :=
  ⟨fbBad_infeasible,
    (c5_objective_absorbs_infeasibility 2 (fun _ => 1) {1} (fun _ => 0)
      CurveMode.closed fbBad).1 fbBad_infeasible⟩

/-! ## Optimizer Core (spec 4.3; the Rust implementation is not under `src/`)

Modelled from the spec: a generic population-based minimization loop.
The parameter-vector type `π`, the fitness order `α`, the
heuristic-specific recombination `recomb` (spec: "Select/Recombine/Mutate
... heuristic-specific") and the seeded initial-individual generator
`indiv` are parameters; the loop structure — evaluate every individual,
update the best-so-far record, build the next generation from the
evaluated snapshot, advance the PRNG stream — is the spec's state
machine.  Parallel evaluation is modelled as index-tagged workers
completing in arbitrary (here: reversed) order and writing results into
their own slot of a result table, which is the spec's "per-individual
independent evaluation, not a shared running reduction". -/

/-- Modelled from the spec: the optimizer configuration of 4.3 —
population size, the three optional stopping rules (at least one
required), the random seed, and the parallel-evaluation flag. -/
structure SynConfig (α : Type) where
  popSize : ℕ
  maxGen : Option ℕ
  targetFitness : Option α
  budgetGen : Option ℕ
  seed : ℕ
  useParallel : Bool

/-- Modelled from the spec: the optimizer configuration error of 7. -/
inductive SynError where
  | noStoppingRule : SynError
deriving DecidableEq, Repr

/-- Modelled from the spec: per-run optimizer state — current population,
PRNG state, generation counter and best-so-far record. -/
structure OptState (π α : Type) where
  pop : List π
  rng : ℕ
  gen : ℕ
  best : Option (π × α)

/-- Modelled from the spec: the deterministic PRNG stream derived from
the seed (a standard LCG). -/
def rngNext (s : ℕ) : ℕ := (s * 1103515245 + 12345) % 2147483648

/-- Modelled from the spec: sequential `Evaluate` — fitness of every
individual, in population order. -/
def evalSeq {π α : Type} (f : π → α) (pop : List π) : List (π × α) :=
  pop.map (fun p => (p, f p))

/-- Modelled from the spec: parallel `Evaluate` — each worker is tagged
with its population index, workers complete in reversed order, and each
writes `(individual, fitness)` into its own slot of the result table
(spec 5: results attributable to the individual that produced them,
consumed in population-index order). -/
def evalPar {π α : Type} (f : π → α) (pop : List π) : List (π × α) :=
  ((pop.enum.reverse).foldl
      (fun acc x => acc.set x.1 (some (x.2, f x.2)))
      (List.replicate pop.length (none : Option (π × α)))).reduceOption

lemma foldr_set_enumFrom {π β : Type} (g : π → β) :
    ∀ (l : List π) (pre : List (Option β)),
      (l.enumFrom pre.length).foldr
          (fun x acc => acc.set x.1 (some (g x.2)))
          (pre ++ List.replicate l.length none) =
        pre ++ l.map (fun p => some (g p)) := by
  intro l
  induction l with
  | nil => intro pre; simp
  | cons a rest ih =>
    intro pre
    rw [List.enumFrom_cons, List.foldr_cons]
    have hlen : (pre ++ [none]).length = pre.length + 1 := by simp
    have hinit : pre ++ List.replicate (a :: rest).length none =
        (pre ++ [(none : Option β)]) ++ List.replicate rest.length none := by
      rw [List.length_cons, List.append_assoc]
      congr 1
    rw [hinit, ← hlen, ih (pre ++ [none])]
    rw [List.append_assoc]
    rw [List.set_append_right _ _ (by simp)]
    congr 1
    simp

lemma reduceOption_map_some {β : Type} (l : List β) :
    (l.map some).reduceOption = l := by
  induction l with
  | nil => rfl
  | cons a t ih => rw [List.map_cons, List.reduceOption_cons_of_some, ih]

lemma evalPar_eq_evalSeq {π α : Type} (f : π → α) (pop : List π) :
    evalPar f pop = evalSeq f pop := by
  unfold evalPar evalSeq
  rw [List.foldl_reverse]
  have h0 : pop.enum = pop.enumFrom (([] : List (Option (π × α))).length) := rfl
  have hinit : List.replicate pop.length (none : Option (π × α)) =
      ([] : List (Option (π × α))) ++ List.replicate pop.length none := rfl
  rw [h0, hinit, foldr_set_enumFrom (fun p => (p, f p)) pop []]
  rw [List.nil_append]
  have : (pop.map (fun p => some (p, f p))) =
      (pop.map (fun p => (p, f p))).map some := by
    rw [List.map_map]
    rfl
  rw [this, reduceOption_map_some]

/-- Modelled from the spec: the `Evaluate` step — the parallel flag picks
the worker-pool evaluation, otherwise the population is mapped in order. -/
def evaluatePop {π α : Type} (par : Bool) (f : π → α) (pop : List π) :
    List (π × α) :=
  if par then evalPar f pop else evalSeq f pop

/-- Modelled from the spec: the best-so-far record updated with a
generation's evaluations (strict improvement replaces, ties keep the
incumbent). -/
def updateBest {π α : Type} [LinearOrder α] (best : Option (π × α))
    (evals : List (π × α)) : Option (π × α) :=
  evals.foldl
    (fun b pa =>
      match b with
      | none => some pa
      | some qb => if pa.2 < qb.2 then some pa else some qb)
    best

/-- Modelled from the spec: one generation of the 4.3 state machine —
evaluate a snapshot of the population, update the best-so-far record,
build the next generation from the evaluated snapshot via the
heuristic-specific `recomb`, advance the PRNG. -/
def stepOpt {π α : Type} [LinearOrder α] (cfg : SynConfig α) (f : π → α)
    (recomb : ℕ → List (π × α) → List π) (s : OptState π α) : OptState π α :=
  let evals := evaluatePop cfg.useParallel f s.pop
  { pop := recomb s.rng evals
    rng := rngNext s.rng
    gen := s.gen + 1
    best := updateBest s.best evals }

/-- Modelled from the spec: `Initialize` — a population of `popSize`
individuals generated deterministically from the seed by the
heuristic-specific `indiv`. -/
def initOptState {π α : Type} (indiv : ℕ → ℕ → π) (cfg : SynConfig α) :
    OptState π α :=
  { pop := (List.range cfg.popSize).map (indiv cfg.seed)
    rng := rngNext cfg.seed
    gen := 0
    best := none }

/-- Modelled from the spec: the optimizer state after `g` generations of
the 4.3 loop. -/
def statesAt {π α : Type} [LinearOrder α] (cfg : SynConfig α) (f : π → α)
    (recomb : ℕ → List (π × α) → List π) (indiv : ℕ → ℕ → π) :
    ℕ → OptState π α
  | 0 => initOptState indiv cfg
  | g + 1 => stepOpt cfg f recomb (statesAt cfg f recomb indiv g)

/-- Modelled from the spec: the best-so-far fitness of a state (`⊤`
before any evaluation). -/
def bestFit {π α : Type} (s : OptState π α) : WithTop α :=
  match s.best with
  | none => ⊤
  | some pa => (pa.2 : WithTop α)

lemma updateBest_le {π α : Type} [LinearOrder α] (evals : List (π × α)) :
    ∀ best : Option (π × α),
      (match updateBest best evals with
        | none => (⊤ : WithTop α)
        | some pa => (pa.2 : WithTop α)) ≤
      (match best with
        | none => (⊤ : WithTop α)
        | some pa => (pa.2 : WithTop α)) := by
  induction evals with
  | nil => intro best; exact le_refl _
  | cons pa rest ih =>
    intro best
    match best with
    | none =>
      have hstep : updateBest none (pa :: rest) = updateBest (some pa) rest := rfl
      rw [hstep]
      exact le_trans (ih (some pa)) le_top
    | some qb =>
      by_cases hlt : pa.2 < qb.2
      · have hstep : updateBest (some qb) (pa :: rest) = updateBest (some pa) rest := by
          show updateBest (if pa.2 < qb.2 then some pa else some qb) rest = _
          rw [if_pos hlt]
        rw [hstep]
        refine le_trans (ih (some pa)) ?_
        show ((pa.2 : WithTop α)) ≤ (qb.2 : WithTop α)
        exact_mod_cast le_of_lt hlt
      · have hstep : updateBest (some qb) (pa :: rest) = updateBest (some qb) rest := by
          show updateBest (if pa.2 < qb.2 then some pa else some qb) rest = _
          rw [if_neg hlt]
        rw [hstep]
        exact ih (some qb)

/-- C3: for every optimizer run (any configuration, seed, objective,
recombination heuristic and initializer), the best-so-far fitness after
generation `g + 1` is never worse than after generation `g`: the
best-so-far sequence is monotonically non-increasing for the
minimization objective. -/
theorem c3_best_monotone {π α : Type} [LinearOrder α] (cfg : SynConfig α)
    (f : π → α) (recomb : ℕ → List (π × α) → List π) (indiv : ℕ → ℕ → π)
    (g : ℕ) :
    bestFit (statesAt cfg f recomb indiv (g + 1)) ≤
      bestFit (statesAt cfg f recomb indiv g) := by
  show bestFit (stepOpt cfg f recomb (statesAt cfg f recomb indiv g)) ≤ _
  unfold bestFit stepOpt
  exact updateBest_le _ _

lemma evaluatePop_eq_evalSeq {π α : Type} (par : Bool) (f : π → α)
    (pop : List π) : evaluatePop par f pop = evalSeq f pop := by
  unfold evaluatePop
  cases par
  · rfl
  · exact evalPar_eq_evalSeq f pop

/-- C4: the optimizer is deterministic — two runs with identical seed,
configuration, objective, recombination heuristic and initializer
produce identical states (population, PRNG state, generation counter and
best record) at every generation, regardless of whether parallel
evaluation is enabled: the state sequence with `useParallel := p1`
equals the one with `useParallel := p2` for any flags `p1`, `p2`. -/
theorem c4_solve_deterministic {π α : Type} [LinearOrder α]
    (cfg : SynConfig α) (f : π → α) (recomb : ℕ → List (π × α) → List π)
    (indiv : ℕ → ℕ → π) (p1 p2 : Bool) (g : ℕ) :
    statesAt { cfg with useParallel := p1 } f recomb indiv g =
      statesAt { cfg with useParallel := p2 } f recomb indiv g := by
  induction g with
  | zero => rfl
  | succ n ih =>
    show stepOpt _ f recomb _ = stepOpt _ f recomb _
    rw [ih]
    unfold stepOpt
    rw [evaluatePop_eq_evalSeq, evaluatePop_eq_evalSeq]

/-- Modelled from the spec: "at least one stopping rule required — a run
with none is a configuration error". -/
def hasStoppingRule {α : Type} (cfg : SynConfig α) : Bool :=
  cfg.maxGen.isSome || cfg.targetFitness.isSome || cfg.budgetGen.isSome

/-- Modelled from the spec: the target-fitness stopping rule — fires
when the best-so-far fitness reaches the threshold. -/
def targetReached {π α : Type} [LinearOrder α] (cfg : SynConfig α)
    (s : OptState π α) : Bool :=
  match cfg.targetFitness, s.best with
  | some t, some pb => pb.2 ≤ t
  | _, _ => false

/-- Modelled from the spec: the generation budget implied by the
counting stopping rules. -/
def genBudget {α : Type} (cfg : SynConfig α) : ℕ :=
  max (cfg.maxGen.getD 0) (cfg.budgetGen.getD 0)

/-- Modelled from the spec: the optimizer loop — run up to `fuel`
generations, stopping early when the target-fitness rule fires. -/
def solveLoop {π α : Type} [LinearOrder α] (cfg : SynConfig α) (f : π → α)
    (recomb : ℕ → List (π × α) → List π) :
    ℕ → OptState π α → OptState π α
  | 0, s => s
  | fuel + 1, s =>
    if targetReached cfg s then s
    else solveLoop cfg f recomb fuel (stepOpt cfg f recomb s)

/-- Modelled from the spec: `solve(objective, config)` of 4.3 — the
configuration is validated first; a configuration with no stopping rule
is rejected with `NoStoppingRule` before any population is built (the
error branch below never touches `initOptState`). -/
def solveSyn {π α : Type} [LinearOrder α] (cfg : SynConfig α) (f : π → α)
    (recomb : ℕ → List (π × α) → List π) (indiv : ℕ → ℕ → π) :
    Except SynError (OptState π α) :=
  if hasStoppingRule cfg then
    Except.ok (solveLoop cfg f recomb (genBudget cfg) (initOptState indiv cfg))
  else Except.error SynError.noStoppingRule

/-- C7: a `solve` invocation whose configuration has no stopping rule at
all (no max generations, no target fitness, no generation budget)
returns the `NoStoppingRule` configuration error synchronously — the
result is the error value itself, produced before the loop or the
initial population enter into the result. -/
theorem c7_no_stopping_rule {π α : Type} [LinearOrder α] (cfg : SynConfig α)
    (f : π → α) (recomb : ℕ → List (π × α) → List π) (indiv : ℕ → ℕ → π)
    (h1 : cfg.maxGen = none) (h2 : cfg.targetFitness = none)
    (h3 : cfg.budgetGen = none) :
    solveSyn cfg f recomb indiv = Except.error SynError.noStoppingRule := by
  unfold solveSyn
  rw [if_neg]
  unfold hasStoppingRule
  rw [h1, h2, h3]
  simp

/-- C7 witness: the theorem applied to a concrete rule-less
configuration over `ℚ`-valued fitness and `ℕ`-coded individuals. -/
theorem c7_no_stopping_rule_witness :
    ({ popSize := 10, maxGen := none, targetFitness := none,
       budgetGen := none, seed := 0, useParallel := false } :
        SynConfig ℚ).maxGen = none ∧
    solveSyn
      ({ popSize := 10, maxGen := none, targetFitness := none,
         budgetGen := none, seed := 0, useParallel := false } : SynConfig ℚ)
      (fun _ : ℕ => (0 : ℚ)) (fun _ _ => []) (fun _ _ => 0) =
      Except.error SynError.noStoppingRule :=
  ⟨rfl,
    c7_no_stopping_rule _ (fun _ : ℕ => (0 : ℚ)) (fun _ _ => []) (fun _ _ => 0)
      rfl rfl rfl⟩

/-! ## Atlas Matcher (spec 4.4; the Rust implementation is not under `src/`)

Modelled from the spec: the atlas store is an immutable list of
(descriptor, parameter-vector) entries; `query` scores every entry by
descriptor distance to the target, sorts stably by distance (ties keep
insertion order) and returns at most `k` results.  The descriptor type
`δ`, parameter-vector type `π` and the ordered distance-value type `α`
are parameters. -/

/-- Modelled from the spec: `query(target, k) -> ordered sequence of
(ParameterVector, distance), length ≤ k`; an empty store yields the
empty sequence, not an error. -/
def atlasQuery {δ π α : Type} [LinearOrder α] (dist : δ → δ → α)
    (store : List (δ × π)) (target : δ) (k : ℕ) : List (π × α) :=
  (List.insertionSort (fun x y : π × α => x.2 ≤ y.2)
    (store.map (fun e => (e.2, dist target e.1)))).take k

/-- C6: for every atlas store, query descriptor and `k`, the query
result has length at most `k`, is ordered by descriptor distance, and is
the empty sequence (not an error) when the store is empty. -/
theorem c6_atlas_query_spec {δ π α : Type} [LinearOrder α]
    (dist : δ → δ → α) (store : List (δ × π)) (target : δ) (k : ℕ) :
    (atlasQuery dist store target k).length ≤ k ∧
    List.Sorted (fun x y : π × α => x.2 ≤ y.2)
      (atlasQuery dist store target k) ∧
    (store = [] → atlasQuery dist store target k = []) := by
  refine ⟨?_, ?_, ?_⟩
  · unfold atlasQuery
    rw [List.length_take]
    exact min_le_left _ _
  · unfold atlasQuery
    haveI : IsTotal (π × α) (fun x y => x.2 ≤ y.2) :=
      ⟨fun a b => le_total a.2 b.2⟩
    haveI : IsTrans (π × α) (fun x y => x.2 ≤ y.2) :=
      ⟨fun a b c h1 h2 => le_trans h1 h2⟩
    exact List.Pairwise.sublist (List.take_sublist _ _)
      (List.sorted_insertionSort _ _)
  · intro h
    subst h
    unfold atlasQuery
    simp

/-- C6 witness: the theorem applied to a concrete two-entry store over
`ℚ` distances. -/
theorem c6_atlas_query_spec_witness :
    (atlasQuery (fun a b : ℚ => |a - b|) [((1 : ℚ), (10 : ℕ)), (3, 30)]
      2 1).length ≤ 1 ∧
    List.Sorted (fun x y : ℕ × ℚ => x.2 ≤ y.2)
      (atlasQuery (fun a b : ℚ => |a - b|) [((1 : ℚ), (10 : ℕ)), (3, 30)] 2 1) ∧
    ([((1 : ℚ), (10 : ℕ)), (3, 30)] = [] →
      atlasQuery (fun a b : ℚ => |a - b|) [((1 : ℚ), (10 : ℕ)), (3, 30)] 2 1 = []) :=
  c6_atlas_query_spec (fun a b : ℚ => |a - b|) [((1 : ℚ), (10 : ℕ)), (3, 30)] 2 1
